import Mathlib

/-!
Verification development for `ap_words.py`, a line-oriented syllabus parser.
Strings are modelled as `List Char`; each input line is modelled without its
trailing newline character (the Python code iterates file lines that carry a
trailing newline, but every regular expression involved treats the trailing
newline identically to its absence once the final `strip()` is applied, and
lines produced by file iteration contain no interior newline).
-/

/-- Embeds Python's whitespace test (`\s` / `str.strip`): the ASCII whitespace
characters together with the Unicode space characters that can occur in the
syllabus domain. -/
def pyIsSpace (c : Char) : Bool :=
  let v := c.val
  (9 ≤ v && v ≤ 13) || v == 32 || (28 ≤ v && v ≤ 31) || v == 0x85 || v == 0xa0
    || v == 0x1680 || (0x2000 ≤ v && v ≤ 0x200a) || v == 0x2028 || v == 0x2029
    || v == 0x202f || v == 0x205f || v == 0x3000

/-- Embeds Python's `\d` restricted to the digit ranges the program's regexes
deal with: ASCII digits and the full-width digits U+FF10..U+FF19. -/
def pyIsDigit (c : Char) : Bool :=
  let v := c.val
  (0x30 ≤ v && v ≤ 0x39) || (0xff10 ≤ v && v ≤ 0xff19)

/-- The character class `[\s　﻿​]` used for the leading
invisible-character strip in `preprocess_line`. -/
def invisibleChar (c : Char) : Bool :=
  pyIsSpace c || c.val == 0x3000 || c.val == 0xfeff || c.val == 0x200b

/-- Left part of Python `str.strip`. -/
def stripLeft (s : List Char) : List Char := s.dropWhile pyIsSpace

/-- Right part of Python `str.strip`. -/
def stripRight (s : List Char) : List Char :=
  (s.reverse.dropWhile pyIsSpace).reverse

/-- Python `str.strip`. -/
def pystrip (s : List Char) : List Char := stripRight (stripLeft s)

/-- Replacement text for a run of `n` consecutive periods under the
substitution `re.sub(r"\.{3,}", "...")`: runs of three or more periods become
exactly three, shorter runs are kept. -/
def emitDots (n : Nat) : List Char :=
  if 3 ≤ n then ['.', '.', '.'] else List.replicate n '.'

/-- Worker for the dot-run collapsing substitution; `n` counts the pending
run of periods already read. -/
def collapseGo : Nat → List Char → List Char
  | n, [] => emitDots n
  | n, c :: rest =>
      if c = '.' then collapseGo (n + 1) rest
      else emitDots n ++ c :: collapseGo 0 rest

/-- `re.sub(r"\.{3,}", "...", text)`. -/
def collapseDots (s : List Char) : List Char := collapseGo 0 s

/-- `a` is a prefix of `b` (plain Boolean test). -/
def isPfx : List Char → List Char → Bool
  | [], _ => true
  | _ :: _, [] => false
  | a :: as, b :: bs => a == b && isPfx as bs

/-- The literal matched at line start by `re.sub(r"^Copyright\(c\) Information.*", "", text)`. -/
def copyMark : List Char := "Copyright(c) Information".toList

/-- `re.sub(r"^Copyright\(c\) Information.*", "", text)`: when the literal
marker starts the line, the match extends to the end of the line (`.` does not
cross a newline), so everything up to the first newline is removed. -/
def stripCopyright (s : List Char) : List Char :=
  if isPfx copyMark s then s.dropWhile (fun c => c ≠ '\n') else s

/-- Full-line match of `^-\d{1,3}-$`: a hyphen, one to three digits, a hyphen. -/
def pageNumberLine : List Char → Bool
  | [] => false
  | c :: rest =>
      decide (c = '-') && decide (1 ≤ (rest.takeWhile pyIsDigit).length)
        && decide ((rest.takeWhile pyIsDigit).length ≤ 3)
        && (rest.dropWhile pyIsDigit == ['-'])

/-- `preprocess_line` from `ap_words.py`: collapse long dot runs, blank
copyright lines, blank page-number lines, strip leading invisible characters,
then trim both ends. -/
def preprocess_line (s : List Char) : List Char :=
  let t1 := collapseDots s
  let t2 := stripCopyright t1
  let t3 := if pageNumberLine t2 then [] else t2
  let t4 := t3.dropWhile invisibleChar
  pystrip t4

example : preprocess_line " -12-".toList = "-12-".toList := by decide
example : preprocess_line "-12-".toList = [] := by decide
example : preprocess_line "Copyright(c) Information xx".toList = [] := by decide
example : preprocess_line "Copyright 2024".toList = "Copyright 2024".toList := by decide
example : preprocess_line "a......b".toList = "a...b".toList := by decide

/-! ## Term tokenizer (`listup_wordlines`) -/

/-- Updated parenthesis nesting level after reading one character: an open
bracket (half- or full-width) increments, a close bracket decrements but never
below zero, all other characters leave it unchanged. -/
def nestUpd (d : Nat) (c : Char) : Nat :=
  if c = '（' || c = '(' then d + 1
  else if c = '）' || c = ')' then (if 0 < d then d - 1 else d)
  else d

/-- State of the character scan inside `listup_wordlines`: nesting level,
current word being accumulated, and terms collected so far. -/
structure TokState where
  inParens : Nat
  cur : List Char
  yougo : List (List Char)
deriving DecidableEq

/-- One character step of the `listup_wordlines` scan: update the nesting
level; at level zero a full-width comma flushes the trimmed current word (when
non-blank), any other character is appended to the current word. -/
def tokStep (st : TokState) (c : Char) : TokState :=
  let d := nestUpd st.inParens c
  if d = 0 ∧ (c = '、' || c = '，') then
    { inParens := d
      cur := []
      yougo := if pystrip st.cur = [] then st.yougo else st.yougo ++ [pystrip st.cur] }
  else
    { inParens := d, cur := st.cur ++ [c], yougo := st.yougo }

/-- Final flush of the scan: append the trimmed remaining word when
non-blank. -/
def finishTok (st : TokState) : List (List Char) :=
  if pystrip st.cur = [] then st.yougo else st.yougo ++ [pystrip st.cur]

/-- `listup_wordlines` from `ap_words.py`: join the lines, scan with
`tokStep` from the empty state, then flush the trimmed remainder when
non-blank. -/
def listup_wordlines (wordlines : List (List Char)) : List (List Char) :=
  finishTok (wordlines.flatten.foldl tokStep ⟨0, [], []⟩)

example :
    listup_wordlines ["情報資産、脆弱性（内部統制の不備を含む）、リスク".toList] =
      ["情報資産".toList, "脆弱性（内部統制の不備を含む）".toList, "リスク".toList] := by
  decide

example :
    listup_wordlines ["脆弱性（内部統制、リスク".toList] =
      ["脆弱性（内部統制、リスク".toList] := by
  decide

example : listup_wordlines ["a 、、 b）、(c、d".toList] = ["a".toList, "b）".toList, "(c、d".toList] := by
  decide

/-- State of the raw depth-zero split scan: same nesting discipline as
`tokStep` but segments are kept untrimmed and unfiltered. -/
structure SplitState where
  depth : Nat
  cur : List Char
  segs : List (List Char)
deriving DecidableEq

/-- One character step of the raw split scan. -/
def splitStep (st : SplitState) (c : Char) : SplitState :=
  let d := nestUpd st.depth c
  if d = 0 ∧ (c = '、' || c = '，') then
    { depth := d, cur := [], segs := st.segs ++ [st.cur] }
  else
    { depth := d, cur := st.cur ++ [c], segs := st.segs }

/-- The raw segments of a passage: the passage split at depth-zero full-width
commas, with empty segments and surrounding whitespace kept. -/
def rawSplit (t : List Char) : List (List Char) :=
  let st := t.foldl splitStep ⟨0, [], []⟩
  st.segs ++ [st.cur]

example : rawSplit "a、、b（c、d）".toList = ["a".toList, [], "b（c、d）".toList] := by decide

/-- All whitespace characters removed; "equality modulo whitespace" compares
these images. -/
def noWs (s : List Char) : List Char := s.filter (fun c => !(pyIsSpace c))

/-- Join a list of strings, placing `sep` at each boundary. -/
def joinSep (sep : List Char) : List (List Char) → List Char
  | [] => []
  | [x] => x
  | x :: y :: xs => x ++ sep ++ joinSep sep (y :: xs)

/-! ## Whitespace-stripping lemmas -/

theorem stripRight_eq_rdropWhile (s : List Char) :
    stripRight s = s.rdropWhile pyIsSpace := rfl

theorem stripLeft_pystrip (s : List Char) : stripLeft (pystrip s) = pystrip s := by
  rcases h : pystrip s with _ | ⟨c, rest⟩
  · simp [stripLeft]
  · have hpre : pystrip s <+: stripLeft s := by
      rw [pystrip, stripRight_eq_rdropWhile]
      exact List.rdropWhile_prefix _ _
    rw [h] at hpre
    obtain ⟨t, ht⟩ := hpre
    rw [stripLeft] at ht
    have h2 := List.head?_dropWhile_not pyIsSpace s
    rw [← ht] at h2
    have hc : pyIsSpace c = false := by simpa using h2
    rw [stripLeft, List.dropWhile_cons_of_neg (by simp [hc])]

theorem pystrip_idem (s : List Char) : pystrip (pystrip s) = pystrip s := by
  conv_lhs => rw [pystrip, stripLeft_pystrip]
  rw [pystrip, stripRight_eq_rdropWhile, stripRight_eq_rdropWhile]
  exact List.rdropWhile_idempotent _ _

theorem pystrip_has_nonspace (s : List Char) (h : pystrip s ≠ []) :
    ∃ c ∈ pystrip s, pyIsSpace c = false := by
  have hself := stripLeft_pystrip s
  rcases hp : pystrip s with _ | ⟨c, rest⟩
  · exact absurd hp h
  · refine ⟨c, by simp, ?_⟩
    rw [hp] at hself
    by_contra hc
    have hc' : pyIsSpace c = true := by revert hc; cases pyIsSpace c <;> simp
    rw [stripLeft, List.dropWhile_cons_of_pos hc'] at hself
    have hlen := congrArg List.length hself
    have hle : (rest.dropWhile pyIsSpace).length ≤ rest.length :=
      (List.dropWhile_suffix pyIsSpace).sublist.length_le
    simp at hlen
    omega

theorem noWs_append (a b : List Char) : noWs (a ++ b) = noWs a ++ noWs b := by
  simp [noWs]

theorem noWs_stripLeft (s : List Char) : noWs (stripLeft s) = noWs s := by
  conv_rhs => rw [← List.takeWhile_append_dropWhile pyIsSpace s]
  rw [noWs_append]
  have hnil : noWs (s.takeWhile pyIsSpace) = [] := by
    rw [noWs, List.filter_eq_nil_iff]
    intro a ha
    have := List.mem_takeWhile_imp ha
    simp [this]
  rw [hnil, stripLeft, List.nil_append]

theorem noWs_stripRight (s : List Char) : noWs (stripRight s) = noWs s := by
  have hsplit : stripRight s ++ s.rtakeWhile pyIsSpace = s := by
    rw [stripRight_eq_rdropWhile, List.rdropWhile, List.rtakeWhile]
    rw [← List.reverse_append, List.takeWhile_append_dropWhile, List.reverse_reverse]
  conv_rhs => rw [← hsplit]
  rw [noWs_append]
  have hnil : noWs (s.rtakeWhile pyIsSpace) = [] := by
    rw [noWs, List.filter_eq_nil_iff]
    intro a ha
    have := List.mem_rtakeWhile_imp ha
    simp [this]
  rw [hnil, List.append_nil]

theorem noWs_pystrip (s : List Char) : noWs (pystrip s) = noWs s := by
  rw [pystrip, noWs_stripRight, noWs_stripLeft]

/-! ## Tokenizer lemmas -/

theorem tokRun_inv (t : List Char) :
    ∀ st : TokState, (∀ u ∈ st.yougo, pystrip u = u ∧ u ≠ []) →
      ∀ u ∈ (t.foldl tokStep st).yougo, pystrip u = u ∧ u ≠ [] := by
  induction t with
  | nil => intro st h; simpa using h
  | cons c rest ih =>
      intro st h
      rw [List.foldl_cons]
      apply ih
      intro u hu
      rw [tokStep] at hu
      by_cases hc : nestUpd st.inParens c = 0 ∧ (c = '、' || c = '，')
      · rw [if_pos hc] at hu
        simp only at hu
        by_cases hz : pystrip st.cur = []
        · rw [if_pos hz] at hu; exact h u hu
        · rw [if_neg hz] at hu
          rcases List.mem_append.mp hu with h1 | h2
          · exact h u h1
          · rw [List.mem_singleton] at h2
            subst h2
            exact ⟨pystrip_idem _, hz⟩
      · rw [if_neg hc] at hu; exact h u hu

theorem listup_mem (lines : List (List Char)) :
    ∀ u ∈ listup_wordlines lines, pystrip u = u ∧ u ≠ [] := by
  intro u hu
  rw [listup_wordlines, finishTok] at hu
  have hbase := tokRun_inv lines.flatten ⟨0, [], []⟩ (by intro u hu; simp at hu)
  by_cases hz : pystrip ((lines.flatten.foldl tokStep ⟨0, [], []⟩).cur) = []
  · rw [if_pos hz] at hu; exact hbase u hu
  · rw [if_neg hz] at hu
    rcases List.mem_append.mp hu with h1 | h2
    · exact hbase u h1
    · rw [List.mem_singleton] at h2
      subst h2
      exact ⟨pystrip_idem _, hz⟩

/-- Claim C6: every term emitted by the tokenizer `listup_wordlines` is
non-empty and not whitespace-only — it equals its own trim and contains at
least one non-whitespace character. -/
theorem listup_terms_nonblank_trimmed (lines : List (List Char)) (t : List Char)
    (ht : t ∈ listup_wordlines lines) :
    pystrip t = t ∧ ∃ c ∈ t, pyIsSpace c = false := by
  obtain ⟨htrim, hne⟩ := listup_mem lines t ht
  refine ⟨htrim, ?_⟩
  have := pystrip_has_nonspace t (by rw [htrim]; exact hne)
  rwa [htrim] at this

theorem listup_terms_nonblank_trimmed_wit :
    ("a b".toList ∈ listup_wordlines [" a b、".toList]) ∧
      (pystrip "a b".toList = "a b".toList ∧
        ∃ c ∈ "a b".toList, pyIsSpace c = false) :=
  ⟨by decide, listup_terms_nonblank_trimmed [" a b、".toList] "a b".toList (by decide)⟩

theorem joinSep_cons (sep x : List Char) {l : List (List Char)} (h : l ≠ []) :
    joinSep sep (x :: l) = x ++ sep ++ joinSep sep l := by
  cases l with
  | nil => exact absurd rfl h
  | cons y ys => rfl

theorem joinSep_snoc_snoc (sep : List Char) (xs : List (List Char)) (y z : List Char) :
    joinSep sep ((xs ++ [y]) ++ [z]) = joinSep sep (xs ++ [y]) ++ sep ++ z := by
  induction xs with
  | nil => simp [joinSep]
  | cons x xs ih =>
      rw [List.cons_append, List.cons_append, joinSep_cons _ _ (by simp),
        joinSep_cons _ _ (by simp), ih]
      simp [List.append_assoc]

theorem joinSep_last_ext (sep : List Char) (xs : List (List Char)) (y : List Char) (c : Char) :
    joinSep sep (xs ++ [y ++ [c]]) = joinSep sep (xs ++ [y]) ++ [c] := by
  induction xs with
  | nil => simp [joinSep]
  | cons x xs ih =>
      rw [List.cons_append, List.cons_append, joinSep_cons _ _ (by simp),
        joinSep_cons _ _ (by simp), ih]
      simp [List.append_assoc]

/-- Relation between the tokenizer scan state and the raw split scan state:
same nesting level, same pending word, and the emitted terms are exactly the
trimmed non-blank raw segments. -/
def tokRel (a : TokState) (b : SplitState) : Prop :=
  a.inParens = b.depth ∧ a.cur = b.cur ∧
    a.yougo = (b.segs.map pystrip).filter (fun s => !s.isEmpty)

theorem tokRel_step {a : TokState} {b : SplitState} (c : Char) (h : tokRel a b) :
    tokRel (tokStep a c) (splitStep b c) := by
  obtain ⟨hd, hc, hy⟩ := h
  rw [tokStep, splitStep, hd, hc]
  by_cases hcond : nestUpd b.depth c = 0 ∧ (c = '、' || c = '，')
  · rw [if_pos hcond, if_pos hcond]
    refine ⟨rfl, rfl, ?_⟩
    simp only [List.map_append, List.filter_append, List.map_cons, List.map_nil, hy]
    by_cases hz : pystrip b.cur = []
    · rw [if_pos hz, hz]
      simp
    · rw [if_neg hz]
      have hemp : (pystrip b.cur).isEmpty = false := by
        cases h' : pystrip b.cur with
        | nil => exact absurd h' hz
        | cons a l => rfl
      simp [List.filter_cons, hemp]
  · rw [if_neg hcond, if_neg hcond]
    exact ⟨rfl, rfl, hy⟩

theorem tokRel_run (t : List Char) :
    ∀ (a : TokState) (b : SplitState), tokRel a b →
      tokRel (t.foldl tokStep a) (t.foldl splitStep b) := by
  induction t with
  | nil => intro a b h; simpa using h
  | cons c rest ih =>
      intro a b h
      rw [List.foldl_cons, List.foldl_cons]
      exact ih _ _ (tokRel_step c h)

/-- The tokenizer's output is the trimmed, blank-filtered list of raw
depth-zero segments of the joined passage. -/
theorem listup_eq_rawSplit (lines : List (List Char)) :
    listup_wordlines lines =
      ((rawSplit lines.flatten).map pystrip).filter (fun s => !s.isEmpty) := by
  have h := tokRel_run lines.flatten ⟨0, [], []⟩ ⟨0, [], []⟩ ⟨rfl, rfl, rfl⟩
  obtain ⟨hd, hc, hy⟩ := h
  rw [listup_wordlines, finishTok, rawSplit, hy, hc]
  simp only [List.map_append, List.filter_append, List.map_cons, List.map_nil]
  by_cases hz : pystrip ((lines.flatten.foldl splitStep ⟨0, [], []⟩).cur) = []
  · rw [if_pos hz, hz]
    simp
  · rw [if_neg hz]
    have hemp : (pystrip ((lines.flatten.foldl splitStep ⟨0, [], []⟩).cur)).isEmpty = false := by
      cases h' : pystrip ((lines.flatten.foldl splitStep ⟨0, [], []⟩).cur) with
      | nil => exact absurd h' hz
      | cons a l => rfl
    simp [List.filter_cons, hemp]

theorem splitRun_join (t : List Char) :
    ∀ st : SplitState, '，' ∉ t →
      joinSep ['、'] (((t.foldl splitStep st).segs ++ [(t.foldl splitStep st).cur])) =
        joinSep ['、'] (st.segs ++ [st.cur]) ++ t := by
  induction t with
  | nil => intro st _; simp
  | cons c rest ih =>
      intro st h
      have hc : c ≠ '，' := by
        intro hcc
        exact h (by rw [hcc]; simp)
      have hrest : '，' ∉ rest := fun hr => h (by simp [hr])
      rw [List.foldl_cons, ih (splitStep st c) hrest]
      have hstep : joinSep ['、'] ((splitStep st c).segs ++ [(splitStep st c).cur]) =
          joinSep ['、'] (st.segs ++ [st.cur]) ++ [c] := by
        rw [splitStep]
        by_cases hcond : nestUpd st.depth c = 0 ∧ (c = '、' || c = '，')
        · rw [if_pos hcond]
          have hcomma : c = '、' := by
            rcases hcond with ⟨-, hor⟩
            rcases Bool.or_eq_true_iff.mp hor with h1 | h1
            · exact of_decide_eq_true h1
            · exact absurd (of_decide_eq_true h1) hc
          simp only
          rw [joinSep_snoc_snoc, hcomma, List.append_nil]
        · rw [if_neg hcond]
          simp only
          rw [joinSep_last_ext]
      rw [hstep, List.append_assoc, List.singleton_append]

/-- Re-joining the raw segments with the full-width comma recovers the
passage, provided the passage uses only `、` as a delimiter. -/
theorem joinSep_rawSplit (t : List Char) (h : '，' ∉ t) :
    joinSep ['、'] (rawSplit t) = t := by
  rw [rawSplit]
  have := splitRun_join t ⟨0, [], []⟩ h
  simpa [joinSep] using this

theorem noWs_joinSep_map_pystrip (xs : List (List Char)) :
    noWs (joinSep ['、'] (xs.map pystrip)) = noWs (joinSep ['、'] xs) := by
  induction xs with
  | nil => rfl
  | cons x xs ih =>
      cases xs with
      | nil => simpa [joinSep] using noWs_pystrip x
      | cons y ys =>
          rw [List.map_cons, joinSep_cons _ _ (by simp), joinSep_cons _ _ (by simp)]
          rw [noWs_append, noWs_append, noWs_append, noWs_append]
          rw [noWs_pystrip, ih]

/-- A well-formed term passage: every depth-zero delimiter is the ideographic
comma `、` (no `，`), and no raw segment is blank. -/
def wellFormedPassage (t : List Char) : Prop :=
  '，' ∉ t ∧ ∀ seg ∈ rawSplit t, pystrip seg ≠ []

instance (t : List Char) : Decidable (wellFormedPassage t) := by
  unfold wellFormedPassage
  infer_instance

/-- Claim C7: for a well-formed passage, concatenating the emitted terms with
one full-width comma at each emission boundary round-trips to the original
concatenated passage modulo whitespace. -/
theorem listup_roundtrip (lines : List (List Char))
    (h : wellFormedPassage lines.flatten) :
    noWs (joinSep ['、'] (listup_wordlines lines)) = noWs lines.flatten := by
  obtain ⟨hcomma, hsegs⟩ := h
  rw [listup_eq_rawSplit]
  have hfilter : ((rawSplit lines.flatten).map pystrip).filter (fun s => !s.isEmpty) =
      (rawSplit lines.flatten).map pystrip := by
    rw [List.filter_eq_self]
    intro a ha
    obtain ⟨seg, hseg, rfl⟩ := List.mem_map.mp ha
    have hne := hsegs seg hseg
    cases h' : pystrip seg with
    | nil => exact absurd h' hne
    | cons a l => rfl
  rw [hfilter, noWs_joinSep_map_pystrip, joinSep_rawSplit _ hcomma]

theorem listup_roundtrip_wit :
    wellFormedPassage (["情報資産、脆弱性（内部統制の不備を含む）、リスク".toList] : List (List Char)).flatten ∧
      noWs (joinSep ['、']
          (listup_wordlines ["情報資産、脆弱性（内部統制の不備を含む）、リスク".toList])) =
        noWs (["情報資産、脆弱性（内部統制の不備を含む）、リスク".toList] : List (List Char)).flatten :=
  ⟨by decide, listup_roundtrip ["情報資産、脆弱性（内部統制の不備を含む）、リスク".toList] (by decide)⟩

theorem tokStep_inParens (st : TokState) (c : Char) :
    (tokStep st c).inParens = nestUpd st.inParens c := by
  rw [tokStep]
  by_cases hc : nestUpd st.inParens c = 0 ∧ (c = '、' || c = '，')
  · rw [if_pos hc]
  · rw [if_neg hc]

theorem tok_scan_no_boundary :
    ∀ (s : List Char) (st : TokState),
      (∀ n, n ≤ s.length → 0 < ((s.take n).foldl tokStep st).inParens) →
      (s.foldl tokStep st).cur = st.cur ++ s ∧ (s.foldl tokStep st).yougo = st.yougo := by
  intro s
  induction s with
  | nil => intro st _; simp
  | cons c rest ih =>
      intro st h
      have h1 := h 1 (by simp)
      rw [List.take_succ_cons, List.take_zero, List.foldl_cons, List.foldl_nil] at h1
      rw [tokStep_inParens] at h1
      have hstep : tokStep st c = ⟨nestUpd st.inParens c, st.cur ++ [c], st.yougo⟩ := by
        rw [tokStep]
        rw [if_neg (by intro hc; omega)]
      have hrest : ∀ n, n ≤ rest.length →
          0 < ((rest.take n).foldl tokStep (tokStep st c)).inParens := by
        intro n hn
        have := h (n + 1) (by simpa using hn)
        rwa [List.take_succ_cons, List.foldl_cons] at this
      obtain ⟨hcur, hyg⟩ := ih (tokStep st c) hrest
      rw [List.foldl_cons]
      rw [hcur, hyg, hstep]
      simp

/-- Claim C8: once the scan has an unmatched open parenthesis that is never
closed again, no further term boundary is emitted — the rest of the passage
is appended to the pending word. -/
theorem unclosed_paren_no_split (p s : List Char)
    (h : ∀ n, n ≤ s.length →
      0 < ((s.take n).foldl tokStep (p.foldl tokStep ⟨0, [], []⟩)).inParens) :
    listup_wordlines [p ++ s] =
      (p.foldl tokStep ⟨0, [], []⟩).yougo ++
        (if pystrip ((p.foldl tokStep ⟨0, [], []⟩).cur ++ s) = [] then []
         else [pystrip ((p.foldl tokStep ⟨0, [], []⟩).cur ++ s)]) := by
  obtain ⟨hcur, hyg⟩ := tok_scan_no_boundary s (p.foldl tokStep ⟨0, [], []⟩) h
  rw [listup_wordlines]
  have hflat : ([p ++ s] : List (List Char)).flatten = p ++ s := by simp
  rw [hflat, List.foldl_append, finishTok, hcur, hyg]
  by_cases hz : pystrip ((p.foldl tokStep ⟨0, [], []⟩).cur ++ s) = []
  · rw [if_pos hz, if_pos hz, List.append_nil]
  · rw [if_neg hz, if_neg hz]

theorem unclosed_paren_no_split_wit :
    (∀ n, n ≤ "内部統制、リスク".toList.length →
      0 < (("内部統制、リスク".toList.take n).foldl tokStep
        ("脆弱性（".toList.foldl tokStep ⟨0, [], []⟩)).inParens) ∧
      listup_wordlines ["脆弱性（内部統制、リスク".toList] =
        ["脆弱性（内部統制、リスク".toList] := by
  constructor
  · decide
  · have h := unclosed_paren_no_split "脆弱性（".toList "内部統制、リスク".toList (by decide)
    have hj : "脆弱性（内部統制、リスク".toList =
        "脆弱性（".toList ++ "内部統制、リスク".toList := by decide
    rw [hj, h]
    decide

/-! ## Line classifier (the ordered regex cascade of `parse_syllabus`) -/

/-- Full-width digit class `[０-９]`. -/
def fwDigit (c : Char) : Bool := 0xff10 ≤ c.val && c.val ≤ 0xff19

/-- Search `\s*\.{3,}\s*\d+$`: the line ends in three or more periods,
optional whitespace, and at least one digit. -/
def tocLine (s : List Char) : Bool :=
  let r := s.reverse
  let digs := r.takeWhile pyIsDigit
  let r2 := (r.dropWhile pyIsDigit).dropWhile pyIsSpace
  decide (1 ≤ digs.length) && decide (3 ≤ (r2.takeWhile (fun c => c == '.')).length)

def daiStr : List Char := "大分類".toList
def chuStr : List Char := "中分類".toList
def yogoStr : List Char := "用語例".toList

/-- Match of the tail `\s+中分類(\d+|[０-９]+)[:：](.+)` of the
class-pair regex at a fixed position; returns (group 3, group 4). -/
def matchTailClass (s : List Char) : Option (List Char × List Char) :=
  if (s.takeWhile pyIsSpace).length = 0 then none
  else
    let s1 := s.dropWhile pyIsSpace
    if isPfx chuStr s1 then
      let s2 := s1.drop 3
      let ds := s2.takeWhile pyIsDigit
      if ds.length = 0 then none
      else
        match s2.dropWhile pyIsDigit with
        | c :: rest =>
            if c = ':' || c = '：' then
              let g4 := rest.takeWhile (fun x => x ≠ '\n')
              if g4.length = 0 then none else some (ds, g4)
            else none
        | [] => none
    else none

/-- Greedy split for `(.+)\s+中分類…`: scan boundaries left to right and keep
the last one whose tail matches, so group 2 is as long as possible (and free
of newlines, which `.` cannot match). -/
def classSplitGo : List Char → List Char → Option (List Char × List Char × List Char) →
    Option (List Char × List Char × List Char)
  | _, [], best => best
  | pre, c :: rest, best =>
      let pre1 := pre ++ [c]
      let best1 :=
        if '\n' ∈ pre1 then best
        else
          match matchTailClass rest with
          | some (g3, g4) => some (pre1, g3, g4)
          | none => best
      classSplitGo pre1 rest best1

/-- `re.match(r'大分類(\d+|[０-９]+)[:：](.+)\s+中分類(\d+|[０-９]+)[:：](.+)', line)`,
returning the four groups. -/
def matchClass (s : List Char) : Option (List Char × List Char × List Char × List Char) :=
  if isPfx daiStr s then
    let s1 := s.drop 3
    let g1 := s1.takeWhile pyIsDigit
    if g1.length = 0 then none
    else
      match s1.dropWhile pyIsDigit with
      | c :: rest =>
          if c = ':' || c = '：' then
            match classSplitGo [] rest none with
            | some (g2, g3, g4) => some (g1, g2, g3, g4)
            | none => none
          else none
      | [] => none
  else none

/-- `re.match(r'^\s*(\d+)\.\s+(.*)', line)` (the level-2 numbered-section
header), returning (group 1, group 2). -/
def matchM3 (s : List Char) : Option (List Char × List Char) :=
  let s0 := s.dropWhile pyIsSpace
  let g1 := s0.takeWhile pyIsDigit
  if g1.length = 0 then none
  else
    match s0.dropWhile pyIsDigit with
    | '.' :: rest =>
        if (rest.takeWhile pyIsSpace).length = 0 then none
        else some (g1, (rest.dropWhile pyIsSpace).takeWhile (fun x => x ≠ '\n'))
    | _ => none

/-- Second alternative of the parenthesized-numeral group:
`[０-９]+` followed by a closing parenthesis. -/
def matchM1Fw (rest : List Char) : Option (List Char × List Char) :=
  let ds := rest.takeWhile fwDigit
  if ds.length = 0 then none
  else
    match rest.dropWhile fwDigit with
    | c :: r2 =>
        if c = ')' || c = '）' then
          some (ds, (r2.dropWhile pyIsSpace).takeWhile (fun x => x ≠ '\n'))
        else none
    | [] => none

/-- `re.match(r'^\s*[\(（](\d|[０-９]+)[\)）]\s*(.*)', line)` (the
level-3 parenthesized-numeral header): first try a single digit, then a run of
full-width digits. -/
def matchM1 (s : List Char) : Option (List Char × List Char) :=
  match s.dropWhile pyIsSpace with
  | c :: rest =>
      if c = '(' || c = '（' then
        match rest with
        | d :: c2 :: rest2 =>
            if pyIsDigit d && (c2 = ')' || c2 = '）') then
              some ([d], (rest2.dropWhile pyIsSpace).takeWhile (fun x => x ≠ '\n'))
            else matchM1Fw rest
        | _ => matchM1Fw rest
      else none
  | [] => none

/-- `re.match(r'^\s*([①-⑳])\s*(.*)', line)` (the level-4 circled-numeral
header). -/
def matchM2 (s : List Char) : Option (Char × List Char) :=
  match s.dropWhile pyIsSpace with
  | c :: rest =>
      if 0x2460 ≤ c.val && c.val ≤ 0x2473 then
        some (c, (rest.dropWhile pyIsSpace).takeWhile (fun x => x ≠ '\n'))
      else none
  | [] => none

/-- `re.match(r'^\s*[\(（]([a-z])[\)）]\s*(.*)', line)` (the lettered
subitem); only whether it matches is used. -/
def matchSub (s : List Char) : Bool :=
  match s.dropWhile pyIsSpace with
  | o :: c :: c2 :: _ =>
      (o = '(' || o = '（') && (0x61 ≤ c.val && c.val ≤ 0x7a) && (c2 = ')' || c2 = '）')
  | _ => false

/-- `re.match(r'^\s*用語例(.*)', line)` (the word-list start marker),
returning group 1. -/
def matchWordStart (s : List Char) : Option (List Char) :=
  let s0 := s.dropWhile pyIsSpace
  if isPfx yogoStr s0 then some ((s0.drop 3).takeWhile (fun x => x ≠ '\n')) else none

/-- Structural role of one (preprocessed, non-empty) line, with capture
groups; the constructors follow the priority order of the code's checks. -/
inductive LineClass where
  | toc
  | cls (g1 g2 g3 g4 : List Char)
  | num2 (g1 g2 : List Char)
  | par3 (g1 g2 : List Char)
  | cir4 (g : Char) (g2 : List Char)
  | sub
  | wstart (g : List Char)
  | plain
deriving DecidableEq

/-- The classification of a line: the table-of-contents check first, then the
regex cascade in the order of the `if`/`elif` chain of `parse_syllabus`. -/
def classifyLine (line : List Char) : LineClass :=
  if tocLine line then .toc
  else
    match matchClass line with
    | some (a, b, c, d) => .cls a b c d
    | none =>
      match matchM3 line with
      | some (a, b) => .num2 a b
      | none =>
        match matchM1 line with
        | some (a, b) => .par3 a b
        | none =>
          match matchM2 line with
          | some (c, b) => .cir4 c b
          | none =>
            if matchSub line then .sub
            else
              match matchWordStart line with
              | some g => .wstart g
              | none => .plain

example : classifyLine "(2) リスク分析と評価".toList =
    LineClass.par3 "2".toList "リスク分析と評価".toList := by decide
example : classifyLine "1. セキュリティ".toList =
    LineClass.num2 "1".toList "セキュリティ".toList := by decide
example : classifyLine "第1章 概要 ... 12".toList = LineClass.toc := by decide
example : classifyLine "① 機密性".toList = LineClass.cir4 '①' "機密性".toList := by decide
example : classifyLine "(a) 下位項目".toList = LineClass.sub := by decide
example : classifyLine "用語例 盗聴、なりすまし".toList =
    LineClass.wstart " 盗聴、なりすまし".toList := by decide
example : classifyLine "大分類1：あ い 中分類2：う".toList =
    LineClass.cls "1".toList "あ い".toList "2".toList "う".toList := by decide
example : classifyLine "ある説明文です。".toList = LineClass.plain := by decide
example : classifyLine "(12) 多桁half".toList = LineClass.plain := by decide
example : classifyLine "（１２） 多桁full".toList =
    LineClass.par3 "１２".toList "多桁full".toList := by decide

/-! ## Block assembler (`parse_syllabus`) -/

/-- The typed blocks yielded by `parse_syllabus`: headers (level 1 carries a
full title), passthrough text, and closed term-list passages. -/
inductive Block where
  | header (level : Nat) (text : List Char) (fullTitle : Option (List Char))
  | text (t : List Char)
  | wordBlock (h1 h2 : List Char) (words : List (List Char))
deriving DecidableEq

/-- Assembler state: the live heading context and the open capture buffer
(`wordlines`); an empty buffer is the `SCANNING` state, a non-empty one the
`CAPTURING` state. -/
structure PState where
  h1 : List Char
  h2 : List Char
  wordlines : List (List Char)
deriving DecidableEq

/-- The flush of a pending word block, emitted with the live context. -/
def flushOf (st : PState) : List Block :=
  if st.wordlines = [] then []
  else [Block.wordBlock st.h1 st.h2 (listup_wordlines st.wordlines)]

/-- `full_title` of a level-1 header:
`f"大分類{g1}：{g2.strip()} 中分類{g3}：{g4.strip()}"`. -/
def classFullTitle (g1 g2 g3 g4 : List Char) : List Char :=
  daiStr ++ g1 ++ '：' :: pystrip g2 ++ ' ' :: chuStr ++ g3 ++ '：' :: pystrip g4

/-- `link_text` of a level-1 header: `f"中分類{g3}：{g4.strip()}"`. -/
def classLinkText (g3 g4 : List Char) : List Char :=
  chuStr ++ g3 ++ '：' :: pystrip g4

/-- One iteration of the `for line in f` loop of `parse_syllabus`: preprocess,
skip when empty, emit a table-of-contents line as text, otherwise flush an
open capture when the line is a header / subitem / word-list marker, then act
on the matched pattern. Returns the new state and the blocks yielded. -/
def processLine (st : PState) (raw : List Char) : PState × List Block :=
  let line := preprocess_line raw
  if line = [] then (st, [])
  else
    match classifyLine line with
    | .toc => (st, [Block.text line])
    | .cls g1 g2 g3 g4 =>
        (⟨[], [], []⟩,
          flushOf st ++
            [Block.header 1 (classLinkText g3 g4) (some (classFullTitle g1 g2 g3 g4))])
    | .num2 g1 g2 =>
        (⟨pystrip g2, [], []⟩,
          flushOf st ++ [Block.header 2 (g1 ++ '.' :: ' ' :: pystrip g2) none])
    | .par3 g1 g2 =>
        (⟨st.h1, pystrip g2, []⟩,
          flushOf st ++ [Block.header 3 ('(' :: g1 ++ ')' :: ' ' :: pystrip g2) none])
    | .cir4 g g2 =>
        (⟨st.h1, st.h2, []⟩,
          flushOf st ++ [Block.header 4 (g :: ' ' :: pystrip g2) none])
    | .sub =>
        (⟨st.h1, st.h2, []⟩, flushOf st ++ [Block.text line])
    | .wstart g =>
        (⟨st.h1, st.h2, [pystrip g]⟩, flushOf st)
    | .plain =>
        if st.wordlines = [] then (st, [Block.text line])
        else (⟨st.h1, st.h2, st.wordlines ++ [line]⟩, [])

/-- Run `processLine` over a list of raw lines, collecting the yielded
blocks. -/
def runLines (st : PState) : List (List Char) → PState × List Block
  | [] => (st, [])
  | l :: ls =>
      let p := processLine st l
      let r := runLines p.1 ls
      (r.1, p.2 ++ r.2)

/-- The end-of-input flush of `parse_syllabus`. -/
def finalFlush (st : PState) : List Block := flushOf st

/-- Blocks yielded by the loop from state `st` over `lines`, including the
end-of-input flush. -/
def parseFrom (st : PState) (lines : List (List Char)) : List Block :=
  (runLines st lines).2 ++ finalFlush (runLines st lines).1

/-- `parse_syllabus` from `ap_words.py`, as a function from the file's raw
lines (without their trailing newlines) to the yielded block stream. -/
def parse_syllabus (lines : List (List Char)) : List Block :=
  parseFrom ⟨[], [], []⟩ lines

example :
    parse_syllabus ["1. あ".toList, "用語例 x、y".toList, "(1) い".toList] =
      [Block.header 2 "1. あ".toList none,
       Block.wordBlock "あ".toList [] ["x".toList, "y".toList],
       Block.header 3 "(1) い".toList none] := by decide

example :
    parse_syllabus ["用語例x".toList, "えとせとら ... 12".toList] =
      [Block.text "えとせとら ... 12".toList,
       Block.wordBlock [] [] ["x".toList]] := by decide

/-! ## Snapshot semantics (the spec's formulation of the context tag) -/

/-- Modelled from the spec: assembler state that additionally records, in
`sh1`/`sh2`, the heading context captured "at the moment its capturing
started" — the snapshot the spec says every `WordBlock` carries. -/
structure SState where
  h1 : List Char
  h2 : List Char
  sh1 : List Char
  sh2 : List Char
  wordlines : List (List Char)
deriving DecidableEq

/-- Flush of a pending word block under snapshot semantics: the block is
tagged with the context recorded when the capture began. -/
def flushSnapOf (st : SState) : List Block :=
  if st.wordlines = [] then []
  else [Block.wordBlock st.sh1 st.sh2 (listup_wordlines st.wordlines)]

/-- Modelled from the spec: one line step under snapshot semantics — identical
to `processLine` except that a word-list start marker records the current
`(h1, h2)` as the block's tag and flushes use that recorded tag. -/
def processLineSnap (st : SState) (raw : List Char) : SState × List Block :=
  let line := preprocess_line raw
  if line = [] then (st, [])
  else
    match classifyLine line with
    | .toc => (st, [Block.text line])
    | .cls g1 g2 g3 g4 =>
        (⟨[], [], st.sh1, st.sh2, []⟩,
          flushSnapOf st ++
            [Block.header 1 (classLinkText g3 g4) (some (classFullTitle g1 g2 g3 g4))])
    | .num2 g1 g2 =>
        (⟨pystrip g2, [], st.sh1, st.sh2, []⟩,
          flushSnapOf st ++ [Block.header 2 (g1 ++ '.' :: ' ' :: pystrip g2) none])
    | .par3 g1 g2 =>
        (⟨st.h1, pystrip g2, st.sh1, st.sh2, []⟩,
          flushSnapOf st ++ [Block.header 3 ('(' :: g1 ++ ')' :: ' ' :: pystrip g2) none])
    | .cir4 g g2 =>
        (⟨st.h1, st.h2, st.sh1, st.sh2, []⟩,
          flushSnapOf st ++ [Block.header 4 (g :: ' ' :: pystrip g2) none])
    | .sub =>
        (⟨st.h1, st.h2, st.sh1, st.sh2, []⟩, flushSnapOf st ++ [Block.text line])
    | .wstart g =>
        (⟨st.h1, st.h2, st.h1, st.h2, [pystrip g]⟩, flushSnapOf st)
    | .plain =>
        if st.wordlines = [] then (st, [Block.text line])
        else (⟨st.h1, st.h2, st.sh1, st.sh2, st.wordlines ++ [line]⟩, [])

/-- Loop of the snapshot machine. -/
def runLinesSnap (st : SState) : List (List Char) → SState × List Block
  | [] => (st, [])
  | l :: ls =>
      let p := processLineSnap st l
      let r := runLinesSnap p.1 ls
      (r.1, p.2 ++ r.2)

/-- Modelled from the spec: the block stream under snapshot semantics, where
every `WordBlock` carries the context recorded when its capture began. -/
def parse_syllabus_snapshot (lines : List (List Char)) : List Block :=
  (runLinesSnap ⟨[], [], [], [], []⟩ lines).2 ++
    flushSnapOf (runLinesSnap ⟨[], [], [], [], []⟩ lines).1

/-! ## Claims about the assembler -/

/-- A classification that terminates an open capture: any header (levels 1-4),
a lettered subitem, or a word-list start marker — the code's condition
`is_header_or_class or m_word_start`. -/
def closesCapture : LineClass → Bool
  | .cls _ _ _ _ => true
  | .num2 _ _ => true
  | .par3 _ _ => true
  | .cir4 _ _ => true
  | .sub => true
  | .wstart _ => true
  | .toc => false
  | .plain => false

/-- Claim C3: when a line that closes an open capture is processed, the
flushed `WordBlock` is the first block emitted for that line — it strictly
precedes the `Header`/`Text` block of the triggering line. -/
theorem flush_before_trigger (st : PState) (raw : List Char)
    (hcap : st.wordlines ≠ [])
    (hne : preprocess_line raw ≠ [])
    (hcl : closesCapture (classifyLine (preprocess_line raw)) = true) :
    (processLine st raw).2.head? =
      some (Block.wordBlock st.h1 st.h2 (listup_wordlines st.wordlines)) := by
  simp only [processLine]
  rw [if_neg hne]
  cases hc : classifyLine (preprocess_line raw) with
  | toc => rw [hc] at hcl; simp [closesCapture] at hcl
  | plain => rw [hc] at hcl; simp [closesCapture] at hcl
  | cls g1 g2 g3 g4 => rw [flushOf, if_neg hcap]; rfl
  | num2 g1 g2 => rw [flushOf, if_neg hcap]; rfl
  | par3 g1 g2 => rw [flushOf, if_neg hcap]; rfl
  | cir4 g g2 => rw [flushOf, if_neg hcap]; rfl
  | sub => rw [flushOf, if_neg hcap]; rfl
  | wstart g => rw [flushOf, if_neg hcap]; rfl

theorem flush_before_trigger_wit :
    ((⟨[], [], ["x".toList]⟩ : PState).wordlines ≠ [] ∧
      preprocess_line "1. A".toList ≠ [] ∧
      closesCapture (classifyLine (preprocess_line "1. A".toList)) = true) ∧
      (processLine ⟨[], [], ["x".toList]⟩ "1. A".toList).2.head? =
        some (Block.wordBlock [] [] (listup_wordlines ["x".toList])) :=
  ⟨⟨by decide, by decide, by decide⟩,
    flush_before_trigger ⟨[], [], ["x".toList]⟩ "1. A".toList
      (by decide) (by decide) (by decide)⟩

/-- Claim C2, counterexample: with a capture open, a table-of-contents line is
not appended to the capture buffer — it immediately yields a `Text` block of
its own and leaves the buffer unchanged. -/
theorem capturing_toc_line_cex :
    processLine ⟨[], [], ["x".toList]⟩ "えとせとら ... 12".toList =
      (⟨[], [], ["x".toList]⟩, [Block.text "えとせとら ... 12".toList]) := by
  decide

/-- Claim C2 (amended): while capturing, every non-empty line not classified
as a header, a lettered subitem, a word-list start marker, or a
table-of-contents line is appended to the capture buffer and produces no
block of its own. -/
theorem capturing_plain_line_appended (st : PState) (raw : List Char)
    (hcap : st.wordlines ≠ [])
    (hne : preprocess_line raw ≠ [])
    (hcl : classifyLine (preprocess_line raw) = LineClass.plain) :
    processLine st raw =
      (⟨st.h1, st.h2, st.wordlines ++ [preprocess_line raw]⟩, []) := by
  simp only [processLine]
  rw [if_neg hne, hcl, if_neg hcap]

theorem capturing_plain_line_appended_wit :
    ((⟨[], [], ["x".toList]⟩ : PState).wordlines ≠ [] ∧
      preprocess_line "普通の行".toList ≠ [] ∧
      classifyLine (preprocess_line "普通の行".toList) = LineClass.plain) ∧
      processLine ⟨[], [], ["x".toList]⟩ "普通の行".toList =
        (⟨[], [], ["x".toList, preprocess_line "普通の行".toList]⟩, []) :=
  ⟨⟨by decide, by decide, by decide⟩,
    capturing_plain_line_appended ⟨[], [], ["x".toList]⟩ "普通の行".toList
      (by decide) (by decide) (by decide)⟩

/-- Claim C9: `parse_syllabus` can yield a `WordBlock` with an empty `words`
sequence — a bare word-list marker line followed by a header produces one. -/
theorem empty_words_wordblock_exists :
    Block.wordBlock [] [] [] ∈ parse_syllabus ["用語例".toList, "1. A".toList] := by
  decide

/-- Whether a raw line would be handled by the level-3
(parenthesized-numeral) header branch. -/
def classifiesLevel3 (raw : List Char) : Bool :=
  match classifyLine (preprocess_line raw) with
  | .par3 _ _ => true
  | _ => false

theorem mem_flushOf_h2 {st : PState} (hst : st.h2 = []) :
    ∀ a b ws, Block.wordBlock a b ws ∈ flushOf st → b = [] := by
  intro a b ws h
  rw [flushOf] at h
  by_cases hw : st.wordlines = []
  · rw [if_pos hw] at h; simp at h
  · rw [if_neg hw, List.mem_singleton] at h
    injection h with ha hb hws
    rw [hb, hst]

theorem processLine_h2_preserved (st : PState) (l : List Char)
    (hst : st.h2 = [])
    (h3 : classifiesLevel3 l = false) :
    (processLine st l).1.h2 = [] ∧
      ∀ a b ws, Block.wordBlock a b ws ∈ (processLine st l).2 → b = [] := by
  simp only [processLine]
  by_cases hne : preprocess_line l = []
  · rw [if_pos hne]
    exact ⟨hst, by intro a b ws h; simp at h⟩
  · rw [if_neg hne]
    unfold classifiesLevel3 at h3
    cases hc : classifyLine (preprocess_line l) with
    | par3 g1 g2 => rw [hc] at h3; simp at h3
    | toc =>
        refine ⟨hst, ?_⟩
        intro a b ws h
        rw [List.mem_singleton] at h
        exact absurd h (by intro hh; cases hh)
    | plain =>
        by_cases hw : st.wordlines = []
        · rw [if_pos hw]
          refine ⟨hst, ?_⟩
          intro a b ws h
          rw [List.mem_singleton] at h
          exact absurd h (by intro hh; cases hh)
        · rw [if_neg hw]
          exact ⟨hst, by intro a b ws h; simp at h⟩
    | cls g1 g2 g3 g4 =>
        refine ⟨rfl, ?_⟩
        intro a b ws h
        rcases List.mem_append.mp h with h | h
        · exact mem_flushOf_h2 hst a b ws h
        · rw [List.mem_singleton] at h
          exact absurd h (by intro hh; cases hh)
    | num2 g1 g2 =>
        refine ⟨rfl, ?_⟩
        intro a b ws h
        rcases List.mem_append.mp h with h | h
        · exact mem_flushOf_h2 hst a b ws h
        · rw [List.mem_singleton] at h
          exact absurd h (by intro hh; cases hh)
    | cir4 g g2 =>
        refine ⟨hst, ?_⟩
        intro a b ws h
        rcases List.mem_append.mp h with h | h
        · exact mem_flushOf_h2 hst a b ws h
        · rw [List.mem_singleton] at h
          exact absurd h (by intro hh; cases hh)
    | sub =>
        refine ⟨hst, ?_⟩
        intro a b ws h
        rcases List.mem_append.mp h with h | h
        · exact mem_flushOf_h2 hst a b ws h
        · rw [List.mem_singleton] at h
          exact absurd h (by intro hh; cases hh)
    | wstart g =>
        exact ⟨hst, fun a b ws h => mem_flushOf_h2 hst a b ws h⟩

theorem runLines_h2_inv (ls : List (List Char)) :
    ∀ st : PState, st.h2 = [] → (∀ l ∈ ls, classifiesLevel3 l = false) →
      (runLines st ls).1.h2 = [] ∧
        ∀ a b ws, Block.wordBlock a b ws ∈ (runLines st ls).2 → b = [] := by
  induction ls with
  | nil =>
      intro st hst _
      exact ⟨hst, by intro a b ws h; simp [runLines] at h⟩
  | cons l ls ih =>
      intro st hst h3
      obtain ⟨hs1, hb1⟩ := processLine_h2_preserved st l hst (h3 l (by simp))
      obtain ⟨hs2, hb2⟩ := ih (processLine st l).1 hs1 (fun x hx => h3 x (by simp [hx]))
      refine ⟨hs2, ?_⟩
      intro a b ws h
      simp only [runLines] at h
      rcases List.mem_append.mp h with h | h
      · exact hb1 a b ws h
      · exact hb2 a b ws h

/-- Claim C5: after a level-2 (numbered-section) header line, and as long as
no later line classifies as a level-3 (parenthesized-numeral) header, the
`h2` component of the heading context is empty at every point, so every
`WordBlock` emitted in that span (end-of-input flush included) carries
`h2 = []`. -/
theorem h2_empty_after_level2 (st : PState) (l2 : List Char)
    (rest : List (List Char)) (a b : List Char)
    (hne : preprocess_line l2 ≠ [])
    (hcl : classifyLine (preprocess_line l2) = LineClass.num2 a b)
    (h3 : ∀ l ∈ rest, classifiesLevel3 l = false) :
    (∀ pre suf, rest = pre ++ suf →
        (runLines (processLine st l2).1 pre).1.h2 = []) ∧
      ∀ w1 w2 ws, Block.wordBlock w1 w2 ws ∈ parseFrom (processLine st l2).1 rest →
        w2 = [] := by
  have hst1 : (processLine st l2).1.h2 = [] := by
    simp only [processLine]
    rw [if_neg hne, hcl]
  constructor
  · intro pre suf hps
    refine (runLines_h2_inv pre (processLine st l2).1 hst1 ?_).1
    intro x hx
    exact h3 x (by rw [hps]; exact List.mem_append_left _ hx)
  · intro w1 w2 ws h
    obtain ⟨hf, hb⟩ := runLines_h2_inv rest (processLine st l2).1 hst1 h3
    rw [parseFrom] at h
    rcases List.mem_append.mp h with h | h
    · exact hb w1 w2 ws h
    · exact mem_flushOf_h2 hf w1 w2 ws h

theorem h2_empty_after_level2_wit :
    (preprocess_line "1. A".toList ≠ [] ∧
      classifyLine (preprocess_line "1. A".toList) =
        LineClass.num2 "1".toList "A".toList ∧
      ∀ l ∈ (["用語例x".toList, "(a) y".toList] : List (List Char)),
        classifiesLevel3 l = false) ∧
      ((∀ pre suf, (["用語例x".toList, "(a) y".toList] : List (List Char)) = pre ++ suf →
          (runLines (processLine ⟨[], [], []⟩ "1. A".toList).1 pre).1.h2 = []) ∧
        ∀ w1 w2 ws,
          Block.wordBlock w1 w2 ws ∈
            parseFrom (processLine ⟨[], [], []⟩ "1. A".toList).1
              ["用語例x".toList, "(a) y".toList] →
          w2 = []) :=
  ⟨⟨by decide, by decide, by decide⟩,
    h2_empty_after_level2 ⟨[], [], []⟩ "1. A".toList
      ["用語例x".toList, "(a) y".toList] "1".toList "A".toList
      (by decide) (by decide) (by decide)⟩

/-- Simulation relation between the live-context machine and the snapshot
machine: same heading context and buffer, and while a capture is open the
recorded snapshot equals the live context. -/
def snapRel (st : PState) (ss : SState) : Prop :=
  ss.h1 = st.h1 ∧ ss.h2 = st.h2 ∧ ss.wordlines = st.wordlines ∧
    (st.wordlines ≠ [] → ss.sh1 = st.h1 ∧ ss.sh2 = st.h2)

theorem flush_snap_eq {st : PState} {ss : SState} (h : snapRel st ss) :
    flushSnapOf ss = flushOf st := by
  obtain ⟨h1, h2, hw, hs⟩ := h
  rw [flushOf, flushSnapOf, hw]
  by_cases hwe : st.wordlines = []
  · rw [if_pos hwe, if_pos hwe]
  · rw [if_neg hwe, if_neg hwe]
    obtain ⟨hs1, hs2⟩ := hs hwe
    rw [hs1, hs2]

theorem processLineSnap_rel {st : PState} {ss : SState} (h : snapRel st ss)
    (l : List Char) :
    (processLineSnap ss l).2 = (processLine st l).2 ∧
      snapRel (processLine st l).1 (processLineSnap ss l).1 := by
  have hflush := flush_snap_eq h
  obtain ⟨h1, h2, hw, hs⟩ := h
  simp only [processLine, processLineSnap]
  by_cases hne : preprocess_line l = []
  · rw [if_pos hne, if_pos hne]
    exact ⟨rfl, h1, h2, hw, hs⟩
  · rw [if_neg hne, if_neg hne]
    cases hc : classifyLine (preprocess_line l) with
    | toc => exact ⟨rfl, h1, h2, hw, hs⟩
    | cls g1 g2 g3 g4 =>
        refine ⟨by rw [hflush], rfl, rfl, rfl, ?_⟩
        intro hcon
        exact absurd rfl hcon
    | num2 g1 g2 =>
        refine ⟨by rw [hflush], rfl, rfl, rfl, ?_⟩
        intro hcon
        exact absurd rfl hcon
    | par3 g1 g2 =>
        refine ⟨by rw [hflush], h1, rfl, rfl, ?_⟩
        intro hcon
        exact absurd rfl hcon
    | cir4 g g2 =>
        refine ⟨by rw [hflush], h1, h2, rfl, ?_⟩
        intro hcon
        exact absurd rfl hcon
    | sub =>
        refine ⟨by rw [hflush], h1, h2, rfl, ?_⟩
        intro hcon
        exact absurd rfl hcon
    | wstart g =>
        exact ⟨hflush, h1, h2, rfl, fun _ => ⟨h1, h2⟩⟩
    | plain =>
        rw [hw]
        by_cases hwe : st.wordlines = []
        · rw [if_pos hwe, if_pos hwe]
          exact ⟨rfl, h1, h2, hw, hs⟩
        · rw [if_neg hwe, if_neg hwe]
          refine ⟨rfl, h1, h2, rfl, ?_⟩
          intro _
          exact hs hwe

theorem runLinesSnap_rel (ls : List (List Char)) :
    ∀ (st : PState) (ss : SState), snapRel st ss →
      (runLinesSnap ss ls).2 = (runLines st ls).2 ∧
        snapRel (runLines st ls).1 (runLinesSnap ss ls).1 := by
  induction ls with
  | nil => intro st ss h; exact ⟨rfl, h⟩
  | cons l ls ih =>
      intro st ss h
      obtain ⟨hout, hrel⟩ := processLineSnap_rel h l
      obtain ⟨hout2, hrel2⟩ := ih _ _ hrel
      simp only [runLines, runLinesSnap]
      exact ⟨by rw [hout, hout2], hrel2⟩

/-- Claim C1: the block stream of `parse_syllabus` coincides with the stream
of the snapshot machine, in which every `WordBlock` is tagged with exactly the
`(h1, h2)` context recorded when its capture began; in particular a capture
closed by a header is flushed with the pre-trigger context. -/
theorem wordblock_context_snapshot (lines : List (List Char)) :
    parse_syllabus lines = parse_syllabus_snapshot lines := by
  obtain ⟨hout, hrel⟩ := runLinesSnap_rel lines ⟨[], [], []⟩ ⟨[], [], [], [], []⟩
    ⟨rfl, rfl, rfl, fun h => absurd rfl h⟩
  rw [parse_syllabus, parseFrom, parse_syllabus_snapshot, hout, finalFlush,
    flush_snap_eq hrel]

/-! ## Preprocessor claims -/

theorem emitDots_zero : emitDots 0 = [] := by
  rw [emitDots]
  simp [List.replicate]

theorem mem_emitDots {c : Char} {n : Nat} (h : c ∈ emitDots n) : c = '.' := by
  rw [emitDots] at h
  by_cases h3 : 3 ≤ n
  · rw [if_pos h3] at h
    simpa using h
  · rw [if_neg h3] at h
    exact List.eq_of_mem_replicate h

theorem collapseGo_append_noDots (p : List Char) :
    ∀ r : List Char, (∀ c ∈ p, c ≠ '.') →
      collapseGo 0 (p ++ r) = p ++ collapseGo 0 r := by
  induction p with
  | nil => intro r _; rfl
  | cons c rest ih =>
      intro r hnd
      rw [List.cons_append, collapseGo, if_neg (hnd c (by simp)), emitDots_zero,
        List.nil_append, ih r (fun x hx => hnd x (by simp [hx]))]
      rfl

theorem collapseGo_noDots (p : List Char) (hnd : ∀ c ∈ p, c ≠ '.') :
    collapseGo 0 p = p := by
  have := collapseGo_append_noDots p [] hnd
  simpa [collapseGo, emitDots_zero] using this

theorem mem_collapseGo {c : Char} :
    ∀ (s : List Char) (n : Nat), c ∈ collapseGo n s → c = '.' ∨ c ∈ s := by
  intro s
  induction s with
  | nil =>
      intro n h
      rw [collapseGo] at h
      exact Or.inl (mem_emitDots h)
  | cons d rest ih =>
      intro n h
      rw [collapseGo] at h
      by_cases hd : d = '.'
      · rw [if_pos hd] at h
        rcases ih (n + 1) h with h | h
        · exact Or.inl h
        · exact Or.inr (by simp [h])
      · rw [if_neg hd] at h
        rcases List.mem_append.mp h with h | h
        · exact Or.inl (mem_emitDots h)
        · rcases List.mem_cons.mp h with h | h
          · exact Or.inr (by simp [h])
          · rcases ih 0 h with h | h
            · exact Or.inl h
            · exact Or.inr (by simp [h])

theorem isPfx_exists {a : List Char} :
    ∀ {b : List Char}, isPfx a b = true → ∃ r, b = a ++ r := by
  induction a with
  | nil => intro b _; exact ⟨b, rfl⟩
  | cons x xs ih =>
      intro b h
      cases b with
      | nil => simp [isPfx] at h
      | cons y ys =>
          rw [isPfx, Bool.and_eq_true] at h
          obtain ⟨hxy, hrest⟩ := h
          obtain ⟨r, hr⟩ := ih hrest
          exact ⟨r, by rw [hr, List.cons_append, beq_iff_eq.mp hxy]⟩

theorem isPfx_append_self (a : List Char) : ∀ r : List Char, isPfx a (a ++ r) = true := by
  induction a with
  | nil => intro r; rfl
  | cons x xs ih =>
      intro r
      rw [List.cons_append, isPfx, Bool.and_eq_true]
      exact ⟨beq_self_eq_true x, ih r⟩

theorem isPfx_head_ne {x : Char} (xs : List Char) {c : Char} (rest : List Char)
    (h : c ≠ x) : isPfx (x :: xs) (c :: rest) = false := by
  rw [isPfx]
  have : (x == c) = false := beq_eq_false_iff_ne.mpr (fun hxc => h hxc.symm)
  rw [this, Bool.false_and]

/-- Claim C4, counterexample: a raw line that begins with the literal marker
`Copyright` but not with `Copyright(c) Information` is not blanked by
`preprocess_line`. -/
theorem copyright_claim_cex :
    isPfx "Copyright".toList "Copyright 2024 IPA".toList = true ∧
      preprocess_line "Copyright 2024 IPA".toList ≠ [] := by
  decide

/-- Claim C4 (amended): every raw line that begins with the literal marker
`Copyright(c) Information` (and contains no newline) is mapped to the empty
string by `preprocess_line`, so it is skipped upstream. -/
theorem copyright_info_line_blanked (s : List Char)
    (hpfx : isPfx copyMark s = true) (hnl : '\n' ∉ s) :
    preprocess_line s = [] := by
  obtain ⟨r, rfl⟩ := isPfx_exists hpfx
  have hnd : ∀ c ∈ copyMark, c ≠ '.' := by decide
  have hcol : collapseDots (copyMark ++ r) = copyMark ++ collapseGo 0 r := by
    rw [collapseDots]
    exact collapseGo_append_noDots copyMark r hnd
  have hdrop : (copyMark ++ collapseGo 0 r).dropWhile (fun c => c ≠ '\n') = [] := by
    rw [List.dropWhile_eq_nil_iff]
    intro x hx
    have hxn : x ≠ '\n' := by
      rcases List.mem_append.mp hx with hx | hx
      · have hall : ∀ c ∈ copyMark, c ≠ '\n' := by decide
        exact hall x hx
      · rcases mem_collapseGo r 0 hx with hx | hx
        · rw [hx]; decide
        · intro hh
          exact hnl (by rw [← hh]; exact List.mem_append_right _ hx)
    simp [hxn]
  simp only [preprocess_line]
  rw [hcol, stripCopyright, if_pos (isPfx_append_self copyMark (collapseGo 0 r)), hdrop]
  rfl

theorem copyright_info_line_blanked_wit :
    (isPfx copyMark "Copyright(c) Information 2024 IPA".toList = true ∧
      '\n' ∉ "Copyright(c) Information 2024 IPA".toList) ∧
      preprocess_line "Copyright(c) Information 2024 IPA".toList = [] :=
  ⟨⟨by decide, by decide⟩,
    copyright_info_line_blanked "Copyright(c) Information 2024 IPA".toList
      (by decide) (by decide)⟩


theorem pystrip_dash (ds : List Char) :
    pystrip ('-' :: (ds ++ ['-'])) = '-' :: (ds ++ ['-']) := by
  rw [pystrip, stripLeft,
    List.dropWhile_cons_of_neg (show ¬pyIsSpace '-' = true by decide), stripRight]
  have hrev : ('-' :: (ds ++ ['-'])).reverse = '-' :: (ds.reverse ++ ['-']) := by
    simp
  rw [hrev, List.dropWhile_cons_of_neg (show ¬pyIsSpace '-' = true by decide),
    ← hrev, List.reverse_reverse]

/-- Claim C10: `preprocess_line` is not idempotent — a page-number artifact
preceded by whitespace or invisible characters survives one pass as non-empty
text, and a second pass erases it. -/
theorem preprocess_not_idempotent (w ds : List Char)
    (hw : w ≠ []) (hwall : ∀ c ∈ w, invisibleChar c = true)
    (hds1 : 1 ≤ ds.length) (hds3 : ds.length ≤ 3)
    (hdig : ∀ c ∈ ds, pyIsDigit c = true) :
    preprocess_line (w ++ ('-' :: (ds ++ ['-']))) = '-' :: (ds ++ ['-']) ∧
      preprocess_line ('-' :: (ds ++ ['-'])) = [] := by
  have hdig_dot : ∀ c : Char, pyIsDigit c = true → c ≠ '.' := by
    intro c hc hcc
    rw [hcc] at hc
    exact absurd hc (by decide)
  have hinv_dot : ∀ c : Char, invisibleChar c = true → c ≠ '.' := by
    intro c hc hcc
    rw [hcc] at hc
    exact absurd hc (by decide)
  have hinv_dash : ∀ c : Char, invisibleChar c = true → c ≠ '-' := by
    intro c hc hcc
    rw [hcc] at hc
    exact absurd hc (by decide)
  have hinv_C : ∀ c : Char, invisibleChar c = true → c ≠ 'C' := by
    intro c hc hcc
    rw [hcc] at hc
    exact absurd hc (by decide)
  have htail_nodot : ∀ c ∈ '-' :: (ds ++ ['-']), c ≠ '.' := by
    intro c hc
    rcases List.mem_cons.mp hc with hc | hc
    · rw [hc]; decide
    · rcases List.mem_append.mp hc with hc | hc
      · exact hdig_dot c (hdig c hc)
      · rw [List.mem_singleton] at hc
        rw [hc]; decide
  have hcm : copyMark = 'C' :: "opyright(c) Information".toList := by decide
  have hpage_tail : pageNumberLine ('-' :: (ds ++ ['-'])) = true := by
    simp only [pageNumberLine]
    have ht : (ds ++ ['-']).takeWhile pyIsDigit = ds := by
      rw [List.takeWhile_append_of_pos hdig,
        List.takeWhile_cons_of_neg (show ¬pyIsDigit '-' = true by decide),
        List.append_nil]
    have hd : (ds ++ ['-']).dropWhile pyIsDigit = ['-'] := by
      rw [List.dropWhile_append_of_pos hdig,
        List.dropWhile_cons_of_neg (show ¬pyIsDigit '-' = true by decide)]
    rw [ht, hd]
    simp [hds1, hds3]
  constructor
  · obtain ⟨w0, wrest, rfl⟩ : ∃ w0 wrest, w = w0 :: wrest := by
      cases w with
      | nil => exact absurd rfl hw
      | cons a l => exact ⟨a, l, rfl⟩
    have hw0 := hwall w0 (by simp)
    have hnodots : ∀ c ∈ (w0 :: wrest) ++ ('-' :: (ds ++ ['-'])), c ≠ '.' := by
      intro c hc
      rcases List.mem_append.mp hc with hc | hc
      · exact hinv_dot c (hwall c hc)
      · exact htail_nodot c hc
    have hcol : collapseDots ((w0 :: wrest) ++ ('-' :: (ds ++ ['-']))) =
        (w0 :: wrest) ++ ('-' :: (ds ++ ['-'])) := by
      rw [collapseDots]
      exact collapseGo_noDots _ hnodots
    have hpfxF : isPfx copyMark ((w0 :: wrest) ++ ('-' :: (ds ++ ['-']))) = false := by
      rw [hcm, List.cons_append]
      exact isPfx_head_ne _ _ (hinv_C w0 hw0)
    have hpgF : pageNumberLine ((w0 :: wrest) ++ ('-' :: (ds ++ ['-']))) = false := by
      rw [List.cons_append]
      simp only [pageNumberLine]
      rw [decide_eq_false (hinv_dash w0 hw0), Bool.false_and, Bool.false_and,
        Bool.false_and]
    have hdropinv : ((w0 :: wrest) ++ ('-' :: (ds ++ ['-']))).dropWhile invisibleChar =
        '-' :: (ds ++ ['-']) := by
      rw [List.dropWhile_append_of_pos hwall,
        List.dropWhile_cons_of_neg (show ¬invisibleChar '-' = true by decide)]
    simp only [preprocess_line]
    rw [hcol, stripCopyright, hpfxF]
    simp only [Bool.false_eq_true, if_false]
    rw [hpgF]
    simp only [Bool.false_eq_true, if_false]
    rw [hdropinv, pystrip_dash]
  · have hcol : collapseDots ('-' :: (ds ++ ['-'])) = '-' :: (ds ++ ['-']) := by
      rw [collapseDots]
      exact collapseGo_noDots _ htail_nodot
    have hpfxF : isPfx copyMark ('-' :: (ds ++ ['-'])) = false := by
      rw [hcm]
      exact isPfx_head_ne _ _ (by decide)
    simp only [preprocess_line]
    rw [hcol, stripCopyright, hpfxF]
    simp only [Bool.false_eq_true, if_false]
    rw [hpage_tail]
    simp only [if_true]
    rfl

theorem preprocess_not_idempotent_wit :
    (([' '] : List Char) ≠ [] ∧
      (∀ c ∈ ([' '] : List Char), invisibleChar c = true) ∧
      1 ≤ (['1', '2'] : List Char).length ∧
      (['1', '2'] : List Char).length ≤ 3 ∧
      ∀ c ∈ (['1', '2'] : List Char), pyIsDigit c = true) ∧
      (preprocess_line ([' '] ++ ('-' :: (['1', '2'] ++ ['-']))) =
          '-' :: (['1', '2'] ++ ['-']) ∧
        preprocess_line ('-' :: (['1', '2'] ++ ['-'])) = []) :=
  ⟨⟨by decide, by decide, by decide, by decide, by decide⟩,
    preprocess_not_idempotent [' '] ['1', '2']
      (by decide) (by decide) (by decide) (by decide) (by decide)⟩
